import Mathlib

/-!
Shallow embedding of the danswer file-ingestion connector
(`backend/danswer/connectors/file/connector.py`) and of the direct-QA
entry point (`backend/danswer/direct_qa/answer_question.py`), together
with theorems settling the specification claims about them.

Python strings are modelled as Lean `String`; Python string methods
(`startswith`, `str.replace(.., .., 1)`, `strip`) are modelled over the
character list of the string.  File handles are modelled as the list of
lines that iterating over them yields, each line either already text or
a byte line whose UTF-8 decoding may fail.  Exceptions are modelled with
`Except`.
-/

namespace Danswer

/-- Python `str.startswith(pre)`: prefix test on the character sequence. -/
def pyStartsWith (s pre : String) : Bool :=
  pre.toList.isPrefixOf s.toList

/-- Core of `str.replace(pat, "", 1)` on character lists: remove the first
occurrence of `pat` (nonempty) from the list, scanning left to right. -/
def removeFirstAux (pat : List Char) : List Char → List Char
  | [] => []
  | c :: cs =>
    if pat.isPrefixOf (c :: cs) then (c :: cs).drop pat.length
    else c :: removeFirstAux pat cs

/-- Python `s.replace(pat, "", 1)` for nonempty `pat`: delete the first
occurrence of `pat` in `s`, if any. -/
def pyRemoveFirst (s pat : String) : String :=
  ⟨removeFirstAux pat.toList s.toList⟩

/-- Whitespace characters stripped by Python `str.strip()` (restricted to
the ASCII whitespace that can occur in the inputs considered here). -/
def pyIsSpace (c : Char) : Bool :=
  c = ' ' || c = '\t' || c = '\n' || c = '\r' || c = '\x0b' || c = '\x0c'

/-- Python `str.strip()`: drop leading and trailing whitespace. -/
def pyStrip (s : String) : String :=
  ⟨((s.toList.dropWhile pyIsSpace).reverse.dropWhile pyIsSpace).reverse⟩

/-- Python `os.path.basename` (POSIX): the part after the last `/`. -/
def basename (s : String) : String :=
  ⟨(s.toList.reverse.takeWhile (fun c => c ≠ '/')).reverse⟩

/-- Modelled from the spec: `get_file_ext` lives in
`danswer/connectors/file/utils.py`, which is not part of the given
sources.  The spec says extensions are derived from the member name; as
in `os.path.splitext`, the extension is the suffix of the base name
starting at its last dot, empty when the base name has no dot past
position 0. -/
def get_file_ext (name : String) : String :=
  let base := (basename name).toList
  let rest := (base.reverse.takeWhile (fun c => c ≠ '.')).reverse
  if rest.length + 2 ≤ base.length then ⟨'.' :: rest⟩ else ""

/-- Modelled from the spec: `TAR_MATCH_PATTERN` lives in
`danswer/connectors/file/utils.py`, which is not part of the given
sources.  The spec says tar-family archives are recognized by a filename
pattern covering plain tar and common compressed-tar suffixes. -/
def tarPatternMatch (lastComponent : String) : Bool :=
  lastComponent.endsWith ".tar" || lastComponent.endsWith ".tar.gz" ||
  lastComponent.endsWith ".tgz" || lastComponent.endsWith ".tar.bz2" ||
  lastComponent.endsWith ".tar.xz"

/-- The `_METADATA_FLAG` constant from the connector. -/
def METADATA_FLAG : String := "#DANSWER_METADATA="

/-! ### JSON (the fragment `json.loads` is applied to)

`json.loads` is Python standard-library code; the sidecar convention in
the spec uses it only on a JSON object whose recognized values are
strings.  The model below parses flat JSON objects with string keys and
string values (with the common escape sequences) and fails on anything
else; Python `dict` duplicate-key semantics (last occurrence wins) are
preserved by the lookup function. -/

/-- Skip JSON whitespace. -/
def skipWs (cs : List Char) : List Char :=
  cs.dropWhile (fun c => c = ' ' || c = '\t' || c = '\n' || c = '\r')

/-- Parse the body of a JSON string after the opening quote, handling
the escape sequences needed here. -/
def parseStringBody : List Char → Option (List Char × List Char)
  | [] => none
  | '"' :: rest => some ([], rest)
  | '\\' :: e :: rest => do
    let c ← match e with
      | '"' => some '"'
      | '\\' => some '\\'
      | '/' => some '/'
      | 'n' => some '\n'
      | 't' => some '\t'
      | 'r' => some '\r'
      | _ => none
    let (body, rest') ← parseStringBody rest
    some (c :: body, rest')
  | '\\' :: [] => none
  | c :: rest => do
    let (body, rest') ← parseStringBody rest
    some (c :: body, rest')

/-- Parse a JSON string literal. -/
def parseJsonString (cs : List Char) : Option (String × List Char) :=
  match cs with
  | '"' :: rest => do
    let (body, rest') ← parseStringBody rest
    some (⟨body⟩, rest')
  | _ => none

/-- Parse one `"key": "value"` pair. -/
def parseJsonPair (cs : List Char) : Option ((String × String) × List Char) := do
  let (k, rest) ← parseJsonString (skipWs cs)
  match skipWs rest with
  | ':' :: rest' => do
    let (v, rest'') ← parseJsonString (skipWs rest')
    some ((k, v), rest'')
  | _ => none

/-- Parse `, pair` repetitions; fuel bounds the recursion. -/
def parseJsonPairsAux : Nat → List Char → List (String × String) →
    Option (List (String × String) × List Char)
  | 0, _, _ => none
  | fuel + 1, cs, acc =>
    match skipWs cs with
    | ',' :: rest => do
      let (p, rest') ← parseJsonPair rest
      parseJsonPairsAux fuel rest' (acc ++ [p])
    | cs' => some (acc, cs')

/-- Model of Python `json.loads` restricted to flat objects with string
keys and string values: returns the pair list in textual order, or
`none` when parsing fails (Python raises `JSONDecodeError`). -/
def json_loads (s : String) : Option (List (String × String)) :=
  let cs := skipWs s.toList
  match cs with
  | '\x7b' :: rest =>
    match skipWs rest with
    | '\x7d' :: rest' => if skipWs rest' = [] then some [] else none
    | rest' => do
      let (p, rest'') ← parseJsonPair rest'
      let (ps, rest''') ← parseJsonPairsAux (rest''.length + 1) rest'' [p]
      match skipWs rest''' with
      | '\x7d' :: tail => if skipWs tail = [] then some ps else none
      | _ => none
  | _ => none

/-- Python `dict.get(key, default)` for a dict built from JSON pairs in
textual order: the last binding of a key wins. -/
def dictGet (pairs : List (String × String)) (key default : String) : String :=
  match pairs.reverse.find? (fun p => p.1 = key) with
  | some p => p.2
  | none => default

/-! ### Data model (`danswer/connectors/models.py` shapes used here) -/

/-- A `Section` of a `Document`: a link and a text blob. -/
structure DocSection where
  link : String
  text : String
deriving Repr, DecidableEq

/-- A normalized `Document` as built by the file connector.  `source` is
the `DocumentSource.FILE` tag, modelled as the string `"file"`. -/
structure Document where
  id : String
  sections : List DocSection
  source : String
  semantic_identifier : String
  metadata : List (String × String)
deriving Repr, DecidableEq

/-- One line yielded by iterating a file handle: text-mode handles yield
`str` lines, binary handles yield byte lines whose UTF-8 decoding can
fail (`none` models a `UnicodeDecodeError`). -/
inductive RawLine where
  | text (s : String)
  | bytes (decoded : Option String)
deriving Repr, DecidableEq

/-- Errors the connector can raise. -/
inductive ConnErr where
  | ioError
  | decodeError
  | jsonError
deriving Repr, DecidableEq

deriving instance DecidableEq for Except

/-- The `isinstance(line, bytes)` decode step of `_process_file`. -/
def decodeLine : RawLine → Except ConnErr String
  | .text s => .ok s
  | .bytes (some s) => .ok s
  | .bytes none => .error .decodeError

/-- The line loop of `_process_file`: fold over the enumerated lines,
collecting the metadata dict (assigned only when line 0 starts with the
metadata flag) and concatenating every other line into the raw content. -/
def readLines : List RawLine → Nat → List (String × String) → String →
    Except ConnErr (List (String × String) × String)
  | [], _, metadata, content => .ok (metadata, content)
  | l :: rest, ind, metadata, content =>
    match decodeLine l with
    | .error e => .error e
    | .ok line =>
      if ind == 0 && pyStartsWith line METADATA_FLAG then
        match json_loads (pyStrip (pyRemoveFirst line METADATA_FLAG)) with
        | some obj => readLines rest (ind + 1) obj content
        | none => .error .jsonError
      else
        readLines rest (ind + 1) metadata (content ++ line)

/-- Model of `_process_file`: validate the extension with the accepted-extension
predicate `accept` (the spec's external configuration collaborator,
standing for `check_file_ext_is_valid`), then read the lines and build
zero or one `Document`. -/
def _process_file (accept : String → Bool) (file_name : String)
    (file : List RawLine) : Except ConnErr (List Document) :=
  if accept file_name then
    match readLines file 0 [] "" with
    | .error e => .error e
    | .ok (metadata, file_content_raw) =>
      .ok [{ id := file_name
             sections := [{ link := dictGet metadata "link" ""
                            text := file_content_raw }]
             source := "file"
             semantic_identifier := file_name
             metadata := [] }]
  else
    .ok []

/-! ### Container Reader

A `Location` is a filesystem path together with what the filesystem
holds at that path.  Opening a location classifies it by its name
(extension / tar filename pattern) and produces the `(member base name,
line stream)` pairs its container yields; opening a corrupt or
unreadable container raises. -/

/-- One member of a tar archive: its path inside the archive, whether it
is a regular file (`member.isfile()`), and the stream `tar.extractfile`
returns for it (`none` when extraction yields no stream). -/
structure TarMember where
  path : String
  is_file : Bool
  extract : Option (List RawLine)
deriving Repr, DecidableEq

/-- What the filesystem holds at a location.  `unreadable` stands for
content whose container cannot be opened (e.g. a corrupt archive). -/
inductive FileContents where
  | plainText (lines : List RawLine)
  | zipArchive (members : List (String × List RawLine))
  | tarArchive (members : List TarMember)
  | unreadable
deriving Repr, DecidableEq

/-- An input location: a path and the contents behind it. -/
structure Location where
  path : String
  contents : FileContents
deriving Repr, DecidableEq

/-- Model of `_get_files_from_zip`: iterate the namelist, yielding each member's
base name with its opened stream. -/
def _get_files_from_zip (members : List (String × List RawLine)) :
    List (String × List RawLine) :=
  members.map (fun m => (basename m.1, m.2))

/-- Model of `_get_files_from_tar`: iterate members, keep regular files whose
extraction yields a stream, yielding base names. -/
def _get_files_from_tar (members : List TarMember) :
    List (String × List RawLine) :=
  members.filterMap (fun m =>
    if m.is_file then
      match m.extract with
      | some lines => some (basename m.path, lines)
      | none => none
    else none)

/-- Model of `_open_files_at_location`: classify the location by extension or tar
filename pattern and produce its member sequence; raise `ioError` when
the container cannot be opened as classified (corrupt archive, missing
or unreadable file).  An unrecognized extension yields no members (a
logged skip, not an error). -/
def _open_files_at_location (loc : Location) :
    Except ConnErr (List (String × List RawLine)) :=
  let extension := get_file_ext loc.path
  if extension = ".zip" then
    match loc.contents with
    | .zipArchive members => .ok (_get_files_from_zip members)
    | _ => .error .ioError
  else if extension = ".txt" then
    match loc.contents with
    | .plainText lines => .ok [(basename loc.path, lines)]
    | _ => .error .ioError
  else if tarPatternMatch (basename loc.path) then
    match loc.contents with
    | .tarArchive members => .ok (_get_files_from_tar members)
    | _ => .error .ioError
  else
    .ok []

/-! ### Batch Emitter (`LocalFileConnector.load_from_state`)

A Python generator that yields some batches and then either finishes or
raises is modelled as the list of yielded batches paired with an
`Except`: `.ok acc` carries the accumulator left when iteration ended
normally (flushed by `load_from_state` if nonempty), `.error e` marks a
raised exception — whatever was in the accumulator at that point is
dropped, exactly as the generator's in-flight list is lost. -/

/-- The inner member loop of `load_from_state`: extend the accumulator
with each processed file's documents, yielding the accumulator as a
batch whenever its length reaches `batch_size`. -/
def runMembers (accept : String → Bool) (batch_size : Nat) :
    List (String × List RawLine) → List Document →
    List (List Document) × Except ConnErr (List Document)
  | [], documents => ([], .ok documents)
  | (file_name, file) :: rest, documents =>
    match _process_file accept file_name file with
    | .error e => ([], .error e)
    | .ok docs =>
      if batch_size ≤ (documents ++ docs).length then
        let r := runMembers accept batch_size rest []
        ((documents ++ docs) :: r.1, r.2)
      else
        runMembers accept batch_size rest (documents ++ docs)

/-- The outer location loop of `load_from_state`. -/
def runLocations (accept : String → Bool) (batch_size : Nat) :
    List Location → List Document →
    List (List Document) × Except ConnErr (List Document)
  | [], documents => ([], .ok documents)
  | loc :: rest, documents =>
    match _open_files_at_location loc with
    | .error e => ([], .error e)
    | .ok files =>
      let r₁ := runMembers accept batch_size files documents
      match r₁.2 with
      | .error e => (r₁.1, .error e)
      | .ok documents' =>
        let r₂ := runLocations accept batch_size rest documents'
        (r₁.1 ++ r₂.1, r₂.2)

/-- The observable outcome of one `load_from_state` call: the yielded
batches in order, and the error that aborted the call, if any. -/
structure LoadResult where
  batches : List (List Document)
  err : Option ConnErr
deriving Repr, DecidableEq

/-- Model of `LocalFileConnector.load_from_state`: drive all locations, then
flush a nonempty trailing accumulator as a final batch. -/
def load_from_state (accept : String → Bool) (file_locations : List Location)
    (batch_size : Nat) : LoadResult :=
  let r := runLocations accept batch_size file_locations []
  match r.2 with
  | .error e => ⟨r.1, some e⟩
  | .ok documents =>
    if documents.isEmpty then ⟨r.1, none⟩
    else ⟨r.1 ++ [documents], none⟩

/-- Model of `LocalFileConnector.load_credentials`: always `None`. -/
def load_credentials (_credentials : List (String × String)) :
    Option (List (String × String)) :=
  none

/-- The documents a member sequence produces, in member order; a member
whose processing raises contributes nothing here. -/
def filesDocs (accept : String → Bool)
    (files : List (String × List RawLine)) : List Document :=
  (files.map (fun m => ((_process_file accept m.1 m.2).toOption.getD []))).flatten

/-- The documents an input produces, in production order (location
order, then member order), ignoring batching; members that fail to open
or process contribute nothing here. -/
def producedDocs (accept : String → Bool) (file_locations : List Location) :
    List Document :=
  (file_locations.map (fun loc =>
    filesDocs accept ((_open_files_at_location loc).toOption.getD []))).flatten

/-! ### Direct QA (`danswer/direct_qa/answer_question.py`)

`answer_question` orchestrates external collaborators (query-intent
classification, retrieval backends, the QA model, search-doc
conversion); per the spec these are outside the core and specified only
at their boundary, so they are passed in as an environment of abstract
functions.  Raising `ValueError` is modelled as `Except.error`. -/

/-- The `SearchType` values from `danswer.search.models` used here. -/
inductive SearchType where
  | keyword
  | semantic
deriving Repr, DecidableEq

/-- An inference chunk as returned by retrieval; its payload is opaque
to `answer_question`, which only counts and slices chunks. -/
structure InferenceChunk where
  chunkId : Nat
deriving Repr, DecidableEq

/-- A search doc as produced by `chunks_to_search_docs`; opaque here. -/
structure SearchDoc where
  docId : Nat
deriving Repr, DecidableEq

/-- The `QuestionRequest` fields `answer_question` reads.  Filters are
opaque and passed through to retrieval; `offset` is a Python `int`. -/
structure QuestionRequest where
  query : String
  collection : String
  filters : List String
  use_keyword : Option Bool
  offset : Option Int
deriving Repr, DecidableEq

/-- The `QAResponse` fields `answer_question` writes (with `error_msg`
defaults to `None` where the code omits it). -/
structure QAResponse where
  answer : Option String
  quotes : Option (List String)
  top_ranked_docs : Option (List SearchDoc)
  lower_ranked_docs : Option (List SearchDoc)
  predicted_flow : String
  predicted_search : SearchType
  error_msg : Option String
deriving Repr, DecidableEq

/-- The external collaborators `answer_question` calls, abstracted at
their interface boundary.  Retrieval gets the query, the optional user
id, the filters, and the collection backing the index it searches;
`qa_model_answer` models `qa_model.answer_question`, whose exceptions
are modelled as `Except.error` with the exception's message. -/
structure QAEnv where
  num_generative_ai_input_docs : Nat
  query_intent : String → SearchType × String
  retrieve_keyword_documents :
    String → Option Nat → List String → String → Option (List InferenceChunk)
  retrieve_ranked_documents :
    String → Option Nat → List String → String →
      Option (List InferenceChunk) × Option (List InferenceChunk)
  chunks_to_search_docs :
    Option (List InferenceChunk) → Option (List SearchDoc)

/-- The `User` model (only `id` is read). -/
structure User where
  id : Nat
deriving Repr, DecidableEq

/-- Python list slicing `xs[a:b]` for `int` bounds: negative bounds
count from the end, then both are clamped to `[0, len]`. -/
def pySliceIndex (len : Nat) (i : Int) : Nat :=
  let j := if i < 0 then i + len else i
  (max 0 (min j len)).toNat

/-- Python `xs[a:b]`. -/
def pySlice {α : Type} (xs : List α) (a b : Int) : List α :=
  (xs.take (pySliceIndex xs.length b)).drop (pySliceIndex xs.length a)

/-- The retrieval section of `answer_question`: decide keyword vs
semantic search and return `(ranked_chunks, unranked_chunks)`. -/
def retrievedChunks (env : QAEnv) (question : QuestionRequest)
    (user : Option User) :
    Option (List InferenceChunk) × Option (List InferenceChunk) :=
  let (predicted_search, _) := env.query_intent question.query
  let use_keyword := match question.use_keyword with
    | some b => b
    | none => predicted_search = SearchType.keyword
  let user_id := user.map User.id
  if use_keyword then
    (env.retrieve_keyword_documents question.query user_id question.filters
      question.collection, some [])
  else
    env.retrieve_ranked_documents question.query user_id question.filters
      question.collection

/-- The error `answer_question` can raise (`ValueError` on an
out-of-range chunk offset). -/
inductive QAErr where
  | chunkOffsetTooLarge
deriving Repr, DecidableEq

/-- Model of `answer_question`: classify intent, retrieve, return an empty
response when no ranked chunks came back, raise when the chunk offset
is out of range, otherwise ask the QA model (whose failure is caught
and reported through `error_msg`) and assemble the response.
`qa_model_answer` is applied to the query and the sliced chunks. -/
def answer_question (env : QAEnv)
    (qa_model_answer :
      String → List InferenceChunk →
        Except String (Option String × Option (List String)))
    (question : QuestionRequest) (user : Option User) :
    Except QAErr QAResponse :=
  let query := question.query
  let offset_count : Int := match question.offset with
    | some o => o
    | none => 0
  let (predicted_search, predicted_flow) := env.query_intent query
  let (ranked_chunks, unranked_chunks) := retrievedChunks env question user
  match ranked_chunks with
  | none =>
    .ok { answer := none, quotes := none, top_ranked_docs := none,
          lower_ranked_docs := none, predicted_flow := predicted_flow,
          predicted_search := predicted_search, error_msg := none }
  | some [] =>
    .ok { answer := none, quotes := none, top_ranked_docs := none,
          lower_ranked_docs := none, predicted_flow := predicted_flow,
          predicted_search := predicted_search, error_msg := none }
  | some ranked@(_ :: _) =>
    let chunk_offset := offset_count * (env.num_generative_ai_input_docs : Int)
    if (ranked.length : Int) ≤ chunk_offset then
      .error .chunkOffsetTooLarge
    else
      match qa_model_answer query
        (pySlice ranked chunk_offset
          (chunk_offset + (env.num_generative_ai_input_docs : Int))) with
      | .ok (answer, quotes) =>
        .ok { answer := answer, quotes := quotes,
              top_ranked_docs := env.chunks_to_search_docs (some ranked),
              lower_ranked_docs := env.chunks_to_search_docs unranked_chunks,
              predicted_flow := predicted_flow,
              predicted_search := predicted_search, error_msg := none }
      | .error e =>
        .ok { answer := none, quotes := none,
              top_ranked_docs := env.chunks_to_search_docs (some ranked),
              lower_ranked_docs := env.chunks_to_search_docs unranked_chunks,
              predicted_flow := predicted_flow,
              predicted_search := predicted_search,
              error_msg := some ("Error occurred in call to LLM - " ++ e) }

/-! ### Derived notions and concrete fixtures used in the theorems -/

/-- Decode every line of a stream, failing at the first undecodable
line, exactly as the line loop of `_process_file` would. -/
def decodeAll : List RawLine → Except ConnErr (List String)
  | [] => .ok []
  | l :: ls =>
    match decodeLine l with
    | .error e => .error e
    | .ok s =>
      match decodeAll ls with
      | .error e => .error e
      | .ok ss => .ok (s :: ss)

/-- Concatenate decoded lines in order (the content a member denotes). -/
def joinLines : List String → String
  | [] => ""
  | s :: ss => s ++ joinLines ss

/-- The accepted-extension predicate instance used by the spec's
examples: accept exactly the `.txt` extension. -/
def acceptTxt : String → Bool := fun name => get_file_ext name == ".txt"

/-- A plain-text demo location with one document. -/
def demoTxt : Location := ⟨"/data/x.txt", .plainText [.text "one\n"]⟩

/-- A zip demo location: `a.txt` and `notes/c.txt` are accepted,
`b.pdf` is skipped (its content is never read, so it may even be
undecodable). -/
def demoZip : Location :=
  ⟨"/data/y.zip", .zipArchive
    [("a.txt", [.text "A\n"]), ("b.pdf", [.bytes none]),
     ("notes/c.txt", [.text "C\n"])]⟩

/-- A corrupt zip demo location: opening it raises. -/
def demoCorrupt : Location := ⟨"/data/bad.zip", .unreadable⟩

/-- Three single-document text locations (so that with batch size 2 one
full batch is yielded and one document stays in flight). -/
def demoPre : List Location :=
  [⟨"/data/p.txt", .plainText [.text "p\n"]⟩,
   ⟨"/data/q.txt", .plainText [.text "q\n"]⟩,
   ⟨"/data/r.txt", .plainText [.text "r\n"]⟩]

/-- A QA environment whose keyword retrieval finds two chunks. -/
def demoEnvKeyword : QAEnv :=
  { num_generative_ai_input_docs := 1
    query_intent := fun _ => (SearchType.keyword, "search")
    retrieve_keyword_documents := fun _ _ _ _ => some [⟨0⟩, ⟨1⟩]
    retrieve_ranked_documents := fun _ _ _ _ => (none, none)
    chunks_to_search_docs := fun c => c.map (List.map (fun ch => ⟨ch.chunkId⟩)) }

/-- A QA environment whose keyword retrieval finds nothing. -/
def demoEnvEmpty : QAEnv :=
  { num_generative_ai_input_docs := 1
    query_intent := fun _ => (SearchType.keyword, "search")
    retrieve_keyword_documents := fun _ _ _ _ => none
    retrieve_ranked_documents := fun _ _ _ _ => (none, none)
    chunks_to_search_docs := fun c => c.map (List.map (fun ch => ⟨ch.chunkId⟩)) }

/-- A QA model stub that always answers. -/
def demoQAModel :
    String → List InferenceChunk →
      Except String (Option String × Option (List String)) :=
  fun _ _ => .ok (some "answer", some [])

/-- A request with a keyword search and a huge offset. -/
def demoQuestion (offset : Option Int) : QuestionRequest :=
  { query := "q", collection := "c", filters := [],
    use_keyword := some true, offset := offset }

/-! ## Supporting lemmas -/

lemma isPrefixOf_append_self (pat rest : List Char) :
    pat.isPrefixOf (pat ++ rest) = true := by
  induction pat with
  | nil => simp [List.isPrefixOf]
  | cons a as ih => simp [List.isPrefixOf, ih]

lemma pyStartsWith_eq (s pre : String) :
    pyStartsWith s pre = pre.data.isPrefixOf s.data := rfl

lemma pyStartsWith_flag_append (j : String) :
    pyStartsWith (METADATA_FLAG ++ j) METADATA_FLAG = true := by
  rw [pyStartsWith_eq, String.data_append]
  exact isPrefixOf_append_self _ _

lemma removeFirstAux_append (p : Char) (ps rest : List Char) :
    removeFirstAux (p :: ps) ((p :: ps) ++ rest) = rest := by
  have h := isPrefixOf_append_self (p :: ps) rest
  rw [List.cons_append, removeFirstAux, ← List.cons_append, if_pos h,
    List.drop_left]

lemma pyRemoveFirst_flag_append (j : String) :
    pyRemoveFirst (METADATA_FLAG ++ j) METADATA_FLAG = j := by
  show String.mk
    (removeFirstAux METADATA_FLAG.data (METADATA_FLAG ++ j).data) = j
  rw [String.data_append]
  rw [show METADATA_FLAG.data = '#' :: "DANSWER_METADATA=".data from rfl]
  rw [removeFirstAux_append]

lemma readLines_pos (ls : List RawLine) (ss : List String) (i : Nat)
    (md : List (String × String)) (c : String) (hi : i ≠ 0)
    (h : decodeAll ls = .ok ss) :
    readLines ls i md c = .ok (md, c ++ joinLines ss) := by
  induction ls generalizing ss i c with
  | nil =>
    simp only [decodeAll] at h
    cases h
    simp [readLines, joinLines, String.append_empty]
  | cons l rest ih =>
    cases hd : decodeLine l with
    | error e => simp [decodeAll, hd] at h
    | ok s =>
      cases hr : decodeAll rest with
      | error e => simp [decodeAll, hd, hr] at h
      | ok ss' =>
        simp only [decodeAll, hd, hr, Except.ok.injEq] at h
        subst h
        have hiz : (i == 0) = false := by simpa using hi
        simp only [readLines, hd, hiz, Bool.false_and, Bool.false_eq_true,
          if_false]
        rw [ih _ (i + 1) _ (Nat.succ_ne_zero i) hr, joinLines,
          String.append_assoc]

/-! ## Document Builder claims -/

/-- Claim C2: for every accepted member whose first content line is the exact
sentinel prefix `#DANSWER_METADATA=` followed by a JSON object whose
`link` is `"http://x"`, and whose remaining content is
`"hello\nworld\n"`, `_process_file` produces exactly one `Document` with
exactly one section whose link is `"http://x"` and whose text is
`"hello\nworld\n"` — the metadata line is excluded from the text. -/
theorem metadata_sidecar_roundtrip (accept : String → Bool) (name j : String)
    (l0 : RawLine) (rest : List RawLine) (md : List (String × String))
    (ss : List String)
    (hacc : accept name = true)
    (h0 : decodeLine l0 = .ok (METADATA_FLAG ++ j))
    (hjson : json_loads (pyStrip j) = some md)
    (hlink : dictGet md "link" "" = "http://x")
    (hrest : decodeAll rest = .ok ss)
    (hbody : joinLines ss = "hello\nworld\n") :
    _process_file accept name (l0 :: rest) =
      .ok [{ id := name,
             sections := [{ link := "http://x", text := "hello\nworld\n" }],
             source := "file", semantic_identifier := name,
             metadata := [] }] := by
  have hrl : readLines (l0 :: rest) 0 [] "" = .ok (md, "hello\nworld\n") := by
    simp only [readLines, h0, pyStartsWith_flag_append, Bool.and_true]
    rw [if_pos (show ((0 : Nat) == 0) = true from rfl),
      pyRemoveFirst_flag_append, hjson]
    show readLines rest 1 md "" = _
    rw [readLines_pos rest ss 1 md "" one_ne_zero hrest,
      String.empty_append, hbody]
  simp only [_process_file, hacc, if_true, hrl, hlink]

/-- Witness for C2 at a concrete member. -/
theorem metadata_sidecar_roundtrip_witness :
    _process_file acceptTxt "a.txt"
      [.text (METADATA_FLAG ++ "\x7b\"link\": \"http://x\"\x7d\n"),
       .text "hello\n", .text "world\n"] =
      .ok [{ id := "a.txt",
             sections := [{ link := "http://x", text := "hello\nworld\n" }],
             source := "file", semantic_identifier := "a.txt",
             metadata := [] }] :=
  metadata_sidecar_roundtrip acceptTxt "a.txt" "\x7b\"link\": \"http://x\"\x7d\n"
    (.text (METADATA_FLAG ++ "\x7b\"link\": \"http://x\"\x7d\n"))
    [.text "hello\n", .text "world\n"] [("link", "http://x")]
    ["hello\n", "world\n"] (by decide) rfl (by decide) (by decide) rfl
    (by decide)

/-- Claim C5: for every accepted member whose first content line decodes but
does not start with the metadata sentinel, the produced document's
single section has an empty link and its text is the full original
content, first line included. -/
theorem no_marker_full_content (accept : String → Bool) (name : String)
    (l0 : RawLine) (rest : List RawLine) (s0 : String) (ss : List String)
    (hacc : accept name = true)
    (h0 : decodeLine l0 = .ok s0)
    (hflag : pyStartsWith s0 METADATA_FLAG = false)
    (hrest : decodeAll rest = .ok ss) :
    _process_file accept name (l0 :: rest) =
      .ok [{ id := name,
             sections := [{ link := "", text := joinLines (s0 :: ss) }],
             source := "file", semantic_identifier := name,
             metadata := [] }] := by
  have hrl : readLines (l0 :: rest) 0 [] "" =
      .ok ([], joinLines (s0 :: ss)) := by
    simp only [readLines, h0, hflag, Bool.and_false, Bool.false_eq_true,
      if_false]
    rw [readLines_pos rest ss 1 [] ("" ++ s0) one_ne_zero hrest,
      String.empty_append]
    rfl
  simp only [_process_file, hacc, if_true, hrl]
  rfl

/-- Witness for C5 at a concrete member. -/
theorem no_marker_full_content_witness :
    _process_file acceptTxt "a.txt" [.text "hello\n", .text "world\n"] =
      .ok [{ id := "a.txt",
             sections := [{ link := "", text := "hello\nworld\n" }],
             source := "file", semantic_identifier := "a.txt",
             metadata := [] }] :=
  no_marker_full_content acceptTxt "a.txt" (.text "hello\n")
    [.text "world\n"] "hello\n" ["world\n"] (by decide) rfl (by decide) rfl

/-- Claim C10: an accepted member always yields exactly one document whenever
processing returns at all; in particular empty content and
metadata-only content give a document whose single section has empty
text; a skip (zero documents) can only come from the extension check. -/
theorem builder_always_one_document :
    (∀ (accept : String → Bool) (name : String) (file : List RawLine)
        (ds : List Document), accept name = true →
        _process_file accept name file = .ok ds → ds.length = 1) ∧
    (∀ (accept : String → Bool) (name : String), accept name = true →
        _process_file accept name [] =
          .ok [{ id := name, sections := [{ link := "", text := "" }],
                 source := "file", semantic_identifier := name,
                 metadata := [] }]) ∧
    (∀ (accept : String → Bool) (name j : String)
        (md : List (String × String)), accept name = true →
        json_loads (pyStrip j) = some md →
        _process_file accept name [.text (METADATA_FLAG ++ j)] =
          .ok [{ id := name,
                 sections := [{ link := dictGet md "link" "", text := "" }],
                 source := "file", semantic_identifier := name,
                 metadata := [] }]) ∧
    (∀ (accept : String → Bool) (name : String) (file : List RawLine)
        (ds : List Document), _process_file accept name file = .ok ds →
        ds = [] → accept name = false) := by
  have hone : ∀ (accept : String → Bool) (name : String)
      (file : List RawLine) (ds : List Document), accept name = true →
      _process_file accept name file = .ok ds → ds.length = 1 := by
    intro accept name file ds hacc h
    simp only [_process_file, hacc, if_true] at h
    cases hrl : readLines file 0 [] "" with
    | error e => rw [hrl] at h; cases h
    | ok p =>
      obtain ⟨md, c⟩ := p
      rw [hrl] at h
      cases h
      rfl
  refine ⟨hone, ?_, ?_, ?_⟩
  · intro accept name hacc
    simp only [_process_file, hacc, if_true, readLines]
    rfl
  · intro accept name j md hacc hjson
    have hrl : readLines [RawLine.text (METADATA_FLAG ++ j)] 0 [] "" =
        .ok (md, "") := by
      simp only [readLines, decodeLine, pyStartsWith_flag_append,
        Bool.and_true]
      rw [if_pos (show ((0 : Nat) == 0) = true from rfl),
        pyRemoveFirst_flag_append, hjson]
    simp only [_process_file, hacc, if_true, hrl]
  · intro accept name file ds h hds
    cases hacc : accept name with
    | false => rfl
    | true =>
      have := hone accept name file ds hacc h
      rw [hds] at this
      cases this

/-- Witness for C10 at a concrete member with empty content. -/
theorem builder_always_one_document_witness :
    _process_file acceptTxt "a.txt" [] =
      .ok [{ id := "a.txt", sections := [{ link := "", text := "" }],
             source := "file", semantic_identifier := "a.txt",
             metadata := [] }] :=
  builder_always_one_document.2.1 acceptTxt "a.txt" (by decide)

/-! ## Batch Emitter lemmas -/

lemma processFile_length_le (accept : String → Bool) (name : String)
    (file : List RawLine) (ds : List Document)
    (h : _process_file accept name file = .ok ds) : ds.length ≤ 1 := by
  cases hacc : accept name with
  | false =>
    simp only [_process_file, hacc, Bool.false_eq_true, if_false,
      Except.ok.injEq] at h
    simp [← h]
  | true =>
    simp only [_process_file, hacc, if_true] at h
    cases hrl : readLines file 0 [] "" with
    | error e => rw [hrl] at h; cases h
    | ok p =>
      obtain ⟨md, c⟩ := p
      rw [hrl] at h
      cases h
      simp

lemma getD_mem {α : Type} (l : List α) (i : Nat) (d : α) (h : i < l.length) :
    l.getD i d ∈ l := by
  induction l generalizing i with
  | nil => simp at h
  | cons a t ih =>
    cases i with
    | zero => simp
    | succ n =>
      simp only [List.getD_cons_succ]
      exact List.mem_cons_of_mem a (ih n (by simpa using h))

lemma runMembers_inv (accept : String → Bool) (bs : Nat) (hbs : 0 < bs) :
    ∀ (files : List (String × List RawLine)) (docs : List Document),
      docs.length < bs →
      (∀ b ∈ (runMembers accept bs files docs).1, b.length = bs) ∧
      (∀ acc, (runMembers accept bs files docs).2 = .ok acc →
        acc.length < bs) := by
  intro files
  induction files with
  | nil =>
    intro docs hd
    refine ⟨by simp [runMembers], ?_⟩
    intro acc hacc
    simp only [runMembers, Except.ok.injEq] at hacc
    exact hacc ▸ hd
  | cons m rest ih =>
    intro docs hd
    obtain ⟨name, file⟩ := m
    cases hp : _process_file accept name file with
    | error e =>
      refine ⟨by simp [runMembers, hp], ?_⟩
      intro acc hacc
      simp [runMembers, hp] at hacc
    | ok ds =>
      have hle := processFile_length_le accept name file ds hp
      by_cases hfull : bs ≤ (docs ++ ds).length
      · have hexact : (docs ++ ds).length = bs := by
          simp only [List.length_append]
          simp only [List.length_append] at hfull
          omega
        have h1 := ih [] (by simpa using hbs)
        constructor
        · intro b hb
          simp only [runMembers, hp, if_pos hfull, List.mem_cons] at hb
          rcases hb with rfl | hb'
          · exact hexact
          · exact h1.1 b hb'
        · intro acc hacc
          simp only [runMembers, hp, if_pos hfull] at hacc
          exact h1.2 acc hacc
      · have hlt : (docs ++ ds).length < bs := Nat.lt_of_not_le hfull
        have h1 := ih (docs ++ ds) hlt
        constructor
        · intro b hb
          simp only [runMembers, hp, if_neg hfull] at hb
          exact h1.1 b hb
        · intro acc hacc
          simp only [runMembers, hp, if_neg hfull] at hacc
          exact h1.2 acc hacc

lemma runLocations_inv (accept : String → Bool) (bs : Nat) (hbs : 0 < bs) :
    ∀ (locs : List Location) (docs : List Document), docs.length < bs →
      (∀ b ∈ (runLocations accept bs locs docs).1, b.length = bs) ∧
      (∀ acc, (runLocations accept bs locs docs).2 = .ok acc →
        acc.length < bs) := by
  intro locs
  induction locs with
  | nil =>
    intro docs hd
    refine ⟨by simp [runLocations], ?_⟩
    intro acc hacc
    simp only [runLocations, Except.ok.injEq] at hacc
    exact hacc ▸ hd
  | cons loc rest ih =>
    intro docs hd
    cases ho : _open_files_at_location loc with
    | error e =>
      refine ⟨by simp [runLocations, ho], ?_⟩
      intro acc hacc
      simp [runLocations, ho] at hacc
    | ok files =>
      have hm := runMembers_inv accept bs hbs files docs hd
      cases hr : (runMembers accept bs files docs).2 with
      | error e =>
        constructor
        · intro b hb
          simp only [runLocations, ho, hr] at hb
          exact hm.1 b hb
        · intro acc hacc
          simp [runLocations, ho, hr] at hacc
      | ok docs' =>
        have h2 := ih docs' (hm.2 docs' hr)
        constructor
        · intro b hb
          simp only [runLocations, ho, hr, List.mem_append] at hb
          rcases hb with hb | hb
          · exact hm.1 b hb
          · exact h2.1 b hb
        · intro acc hacc
          simp only [runLocations, ho, hr] at hacc
          exact h2.2 acc hacc

lemma runMembers_flatten (accept : String → Bool) (bs : Nat) :
    ∀ (files : List (String × List RawLine)) (docs acc : List Document),
      (runMembers accept bs files docs).2 = .ok acc →
      (runMembers accept bs files docs).1.flatten ++ acc =
        docs ++ filesDocs accept files := by
  intro files
  induction files with
  | nil =>
    intro docs acc h
    simp only [runMembers, Except.ok.injEq] at h
    simp [h, runMembers, filesDocs]
  | cons m rest ih =>
    intro docs acc h
    obtain ⟨name, file⟩ := m
    cases hp : _process_file accept name file with
    | error e => simp [runMembers, hp] at h
    | ok ds =>
      have hfd : filesDocs accept ((name, file) :: rest) =
          ds ++ filesDocs accept rest := by
        simp [filesDocs, hp, Except.toOption]
      by_cases hfull : bs ≤ (docs ++ ds).length
      · simp only [runMembers, hp, if_pos hfull] at h ⊢
        rw [List.flatten_cons, List.append_assoc, ih [] acc h, hfd]
        simp [List.append_assoc]
      · simp only [runMembers, hp, if_neg hfull] at h ⊢
        rw [ih (docs ++ ds) acc h, hfd, List.append_assoc]

lemma runLocations_flatten (accept : String → Bool) (bs : Nat) :
    ∀ (locs : List Location) (docs acc : List Document),
      (runLocations accept bs locs docs).2 = .ok acc →
      (runLocations accept bs locs docs).1.flatten ++ acc =
        docs ++ producedDocs accept locs := by
  intro locs
  induction locs with
  | nil =>
    intro docs acc h
    simp only [runLocations, Except.ok.injEq] at h
    simp [h, runLocations, producedDocs]
  | cons loc rest ih =>
    intro docs acc h
    cases ho : _open_files_at_location loc with
    | error e => simp [runLocations, ho] at h
    | ok files =>
      have hpd : producedDocs accept (loc :: rest) =
          filesDocs accept files ++ producedDocs accept rest := by
        simp [producedDocs, ho, Except.toOption]
      cases hr : (runMembers accept bs files docs).2 with
      | error e => simp [runLocations, ho, hr] at h
      | ok docs' =>
        simp only [runLocations, ho, hr] at h ⊢
        rw [List.flatten_append, List.append_assoc, ih docs' acc h,
          hpd, ← List.append_assoc, runMembers_flatten accept bs files docs
            docs' hr, List.append_assoc]

/-! ## Batch Emitter claims -/

/-- Claim C1: with a positive batch size, every yielded batch of
`load_from_state` has length at most the batch size, and every batch
except possibly the last has length exactly the batch size. -/
theorem batch_size_bound (accept : String → Bool) (locs : List Location)
    (bs : Nat) (hbs : 0 < bs) :
    (∀ b ∈ (load_from_state accept locs bs).batches, b.length ≤ bs) ∧
    (∀ i, i + 1 < (load_from_state accept locs bs).batches.length →
      ((load_from_state accept locs bs).batches.getD i []).length = bs) := by
  have hinv := runLocations_inv accept bs hbs locs [] (by simpa using hbs)
  cases hr : (runLocations accept bs locs []).2 with
  | error e =>
    constructor
    · intro b hb
      simp only [load_from_state, hr] at hb
      exact le_of_eq (hinv.1 b hb)
    · intro i hi
      simp only [load_from_state, hr] at hi ⊢
      exact hinv.1 _ (getD_mem _ i [] (by omega))
  | ok docs =>
    have hdlt := hinv.2 docs hr
    by_cases hde : docs.isEmpty
    · constructor
      · intro b hb
        simp only [load_from_state, hr, if_pos hde] at hb
        exact le_of_eq (hinv.1 b hb)
      · intro i hi
        simp only [load_from_state, hr, if_pos hde] at hi ⊢
        exact hinv.1 _ (getD_mem _ i [] (by omega))
    · constructor
      · intro b hb
        simp only [load_from_state, hr, if_neg hde, List.mem_append,
          List.mem_singleton] at hb
        rcases hb with hb | rfl
        · exact le_of_eq (hinv.1 b hb)
        · exact le_of_lt hdlt
      · intro i hi
        simp only [load_from_state, hr, if_neg hde, List.length_append,
          List.length_singleton] at hi ⊢
        have hilt : i < (runLocations accept bs locs []).1.length := by omega
        rw [List.getD_append _ _ _ _ hilt]
        exact hinv.1 _ (getD_mem _ i [] hilt)

/-- Witness for C1: the demo input yields a full first batch. -/
theorem batch_size_bound_witness :
    ((load_from_state acceptTxt [demoTxt, demoZip] 2).batches.getD 0
      []).length = 2 :=
  (batch_size_bound acceptTxt [demoTxt, demoZip] 2 (by decide)).2 0
    (by decide)


/-- Claim C6: whenever a load completes without error, the concatenation of
its yielded batches is exactly the produced-document sequence in
production order (location order, then member order); in particular the
demo input — one `.txt` location then one `.zip` location totalling 3
accepted documents, batch size 2 — yields batches of sizes `[2, 1]` in
input order. -/
theorem batches_preserve_order :
    (∀ (accept : String → Bool) (locs : List Location) (bs : Nat),
      (load_from_state accept locs bs).err = none →
      (load_from_state accept locs bs).batches.flatten =
        producedDocs accept locs) ∧
    ((load_from_state acceptTxt [demoTxt, demoZip] 2).batches.map
        List.length = [2, 1] ∧
      (load_from_state acceptTxt [demoTxt, demoZip] 2).batches.flatten =
        producedDocs acceptTxt [demoTxt, demoZip]) := by
  constructor
  · intro accept locs bs herr
    cases hr : (runLocations accept bs locs []).2 with
    | error e => simp [load_from_state, hr] at herr
    | ok docs =>
      have hfl := runLocations_flatten accept bs locs [] docs hr
      by_cases hde : docs.isEmpty
      · have : docs = [] := by simpa [List.isEmpty_iff] using hde
        subst this
        simp only [load_from_state, hr, if_pos hde]
        simpa using hfl
      · simp only [load_from_state, hr, if_neg hde, List.flatten_append,
          List.flatten_cons, List.flatten_nil, List.append_nil]
        simpa using hfl
  · constructor
    · decide
    · decide

/-- Witness for C6 at the demo input. -/
theorem batches_preserve_order_witness :
    (load_from_state acceptTxt [demoTxt, demoZip] 2).batches.flatten =
      producedDocs acceptTxt [demoTxt, demoZip] :=
  batches_preserve_order.1 acceptTxt [demoTxt, demoZip] 2 (by decide)

/-- Claim C7: with a positive batch size, an input whose accepted-document
count is zero (every member of every location that opens yields no
documents) makes `load_from_state` yield nothing at all — zero batches,
never an empty batch. -/
theorem zero_documents_zero_batches (accept : String → Bool)
    (locs : List Location) (bs : Nat) (hbs : 0 < bs)
    (h : ∀ loc ∈ locs,
      ∀ m ∈ (_open_files_at_location loc).toOption.getD [],
      ((_process_file accept m.1 m.2).toOption.getD []) = []) :
    (load_from_state accept locs bs).batches = [] := by
  have hrm : ∀ (files : List (String × List RawLine)),
      (∀ m ∈ files, ((_process_file accept m.1 m.2).toOption.getD []) = []) →
      (runMembers accept bs files []).1 = [] ∧
        ((runMembers accept bs files []).2 = .ok [] ∨
          ∃ e, (runMembers accept bs files []).2 = .error e) := by
    intro files
    induction files with
    | nil => exact fun _ => ⟨rfl, .inl rfl⟩
    | cons m rest ih =>
      intro hf
      obtain ⟨name, file⟩ := m
      cases hp : _process_file accept name file with
      | error e => exact ⟨by simp [runMembers, hp], .inr ⟨e, by simp [runMembers, hp]⟩⟩
      | ok ds =>
        have hds : ds = [] := by
          have := hf (name, file) (List.mem_cons_self _ _)
          simpa [hp, Except.toOption] using this
        subst hds
        have hbz : bs ≠ 0 := Nat.pos_iff_ne_zero.mp hbs
        have := ih (fun m hm => hf m (List.mem_cons_of_mem _ hm))
        simpa [runMembers, hp, hbz] using this
  have hrl : ∀ (ls : List Location),
      (∀ loc ∈ ls, ∀ m ∈ (_open_files_at_location loc).toOption.getD [],
        ((_process_file accept m.1 m.2).toOption.getD []) = []) →
      (runLocations accept bs ls []).1 = [] ∧
        ((runLocations accept bs ls []).2 = .ok [] ∨
          ∃ e, (runLocations accept bs ls []).2 = .error e) := by
    intro ls
    induction ls with
    | nil => exact fun _ => ⟨rfl, .inl rfl⟩
    | cons loc rest ih =>
      intro hl
      cases ho : _open_files_at_location loc with
      | error e => exact ⟨by simp [runLocations, ho], .inr ⟨e, by simp [runLocations, ho]⟩⟩
      | ok files =>
        have hm := hrm files (by
          have := hl loc (List.mem_cons_self _ _)
          simpa [ho, Except.toOption] using this)
        cases hr2 : (runMembers accept bs files []).2 with
        | error e =>
          refine ⟨?_, .inr ⟨e, ?_⟩⟩ <;> simp [runLocations, ho, hr2, hm.1]
        | ok docs =>
          have hdocs : docs = [] := by
            rcases hm.2 with hok | ⟨e, herr⟩
            · rw [hr2] at hok; cases hok; rfl
            · rw [hr2] at herr; cases herr
          subst hdocs
          have := ih (fun l hml => hl l (List.mem_cons_of_mem _ hml))
          constructor
          · simp [runLocations, ho, hr2, hm.1, this.1]
          · rcases this.2 with hok | ⟨e, herr⟩
            · exact .inl (by simp [runLocations, ho, hr2, hok])
            · exact .inr ⟨e, by simp [runLocations, ho, hr2, herr]⟩
  have hres := hrl locs h
  rcases hres.2 with hok | ⟨e, herr⟩
  · simp [load_from_state, hok, hres.1]
  · simp [load_from_state, herr, hres.1]

/-- Witness for C7: a location whose only member is extension-rejected
yields zero batches. -/
theorem zero_documents_zero_batches_witness :
    (load_from_state acceptTxt
      [⟨"/data/w.zip", .zipArchive [("b.pdf", [.text "x\n"])]⟩] 2).batches =
      [] :=
  zero_documents_zero_batches acceptTxt
    [⟨"/data/w.zip", .zipArchive [("b.pdf", [.text "x\n"])]⟩] 2
    (by decide) (by decide)


lemma runLocations_error_after (accept : String → Bool) (bs : Nat)
    (loc : Location) (rest : List Location) (e : ConnErr)
    (he : _open_files_at_location loc = .error e) :
    ∀ (xs : List Location) (docs d : List Document)
      (b : List (List Document)),
      runLocations accept bs xs docs = (b, .ok d) →
      runLocations accept bs (xs ++ loc :: rest) docs = (b, .error e) := by
  intro xs
  induction xs with
  | nil =>
    intro docs d b h
    simp only [runLocations, Prod.mk.injEq, Except.ok.injEq] at h
    simp [runLocations, he, ← h.1]
  | cons x xs ih =>
    intro docs d b h
    cases ho : _open_files_at_location x with
    | error e' => simp [runLocations, ho, Prod.mk.injEq] at h
    | ok files =>
      cases hr : (runMembers accept bs files docs).2 with
      | error e' => simp [runLocations, ho, hr, Prod.mk.injEq] at h
      | ok docs' =>
        simp only [runLocations, ho, hr, Prod.mk.injEq] at h
        obtain ⟨hb, hd⟩ := h
        have hxs : runLocations accept bs xs docs' =
            ((runLocations accept bs xs docs').1, .ok d) := by
          rw [← hd]
        have := ih docs' d (runLocations accept bs xs docs').1 hxs
        have happ : xs.append (loc :: rest) = xs ++ loc :: rest := rfl
        simp only [List.cons_append, runLocations, ho, hr, happ, this, ← hb]

/-- Claim C3: when processing a location raises (e.g. a corrupt zip), a load
over `pre ++ [bad] ++ rest` propagates the error; its yielded batches
are exactly the full batches a clean load of `pre` yields — the
documents accumulated in the in-flight (undersized) batch at the moment
of the error are never yielded, and already-yielded batches are
unaffected. -/
theorem fatal_error_drops_inflight (accept : String → Bool) (bs : Nat)
    (pre rest : List Location) (loc : Location) (e : ConnErr)
    (hbs : 0 < bs)
    (he : _open_files_at_location loc = .error e)
    (hok : (load_from_state accept pre bs).err = none) :
    load_from_state accept (pre ++ loc :: rest) bs =
      ⟨(load_from_state accept pre bs).batches.filter
        (fun b => b.length == bs), some e⟩ := by
  cases hr : (runLocations accept bs pre []).2 with
  | error e' => simp [load_from_state, hr] at hok
  | ok d =>
    have hinv := runLocations_inv accept bs hbs pre [] (by simpa using hbs)
    have hfullb : ∀ b ∈ (runLocations accept bs pre []).1,
        (b.length == bs) = true := by
      intro b hb
      simpa using hinv.1 b hb
    have hpair : runLocations accept bs pre [] =
        ((runLocations accept bs pre []).1, .ok d) := by
      rw [← hr]
    have hfull := runLocations_error_after accept bs loc rest e he pre [] d
      (runLocations accept bs pre []).1 hpair
    by_cases hde : d.isEmpty
    · simp only [load_from_state, hr, if_pos hde, hfull]
      rw [List.filter_eq_self.mpr hfullb]
    · have hdlt : (d.length == bs) = false := by
        simp only [beq_eq_false_iff_ne, ne_eq]
        exact Nat.ne_of_lt (hinv.2 d hr)
      simp only [load_from_state, hr, if_neg hde, hfull,
        List.filter_append, List.filter_cons, hdlt, Bool.false_eq_true,
        if_false, List.filter_nil, List.append_nil]
      rw [List.filter_eq_self.mpr hfullb]

/-- Witness for C3: three one-document text locations then a corrupt
zip, batch size 2 — the full batch is yielded, the in-flight document
is lost, and the error propagates. -/
theorem fatal_error_drops_inflight_witness :
    load_from_state acceptTxt (demoPre ++ demoCorrupt :: []) 2 =
      ⟨(load_from_state acceptTxt demoPre 2).batches.filter
        (fun b => b.length == 2), some .ioError⟩ :=
  fatal_error_drops_inflight acceptTxt 2 demoPre [] demoCorrupt .ioError
    (by decide) rfl (by decide)


lemma processFile_id (accept : String → Bool) (name : String)
    (file : List RawLine) (ds : List Document)
    (h : _process_file accept name file = .ok ds) :
    ∀ d ∈ ds, d.id = name := by
  intro d hd
  cases hacc : accept name with
  | false =>
    simp only [_process_file, hacc, Bool.false_eq_true, if_false,
      Except.ok.injEq] at h
    rw [← h] at hd
    cases hd
  | true =>
    simp only [_process_file, hacc, if_true] at h
    cases hrl : readLines file 0 [] "" with
    | error e => rw [hrl] at h; cases h
    | ok p =>
      obtain ⟨md, c⟩ := p
      rw [hrl] at h
      cases h
      simp only [List.mem_singleton] at hd
      rw [hd]

lemma runMembers_ok_exists (accept : String → Bool) (bs : Nat) :
    ∀ (files : List (String × List RawLine)) (docs : List Document),
      (∀ m ∈ files, ∃ ds, _process_file accept m.1 m.2 = .ok ds) →
      ∃ acc, (runMembers accept bs files docs).2 = .ok acc := by
  intro files
  induction files with
  | nil => exact fun docs _ => ⟨docs, rfl⟩
  | cons m rest ih =>
    intro docs hf
    obtain ⟨name, file⟩ := m
    obtain ⟨ds, hds⟩ := hf (name, file) (List.mem_cons_self _ _)
    have hrest := fun m hm => hf m (List.mem_cons_of_mem _ hm)
    by_cases hfull : bs ≤ (docs ++ ds).length
    · obtain ⟨acc, hacc⟩ := ih [] hrest
      exact ⟨acc, by simp only [runMembers, hds, if_pos hfull, hacc]⟩
    · obtain ⟨acc, hacc⟩ := ih (docs ++ ds) hrest
      exact ⟨acc, by simp only [runMembers, hds, if_neg hfull, hacc]⟩

lemma load_err_none (accept : String → Bool) (bs : Nat)
    (locs : List Location)
    (h : ∀ loc ∈ locs, ∃ files, _open_files_at_location loc = .ok files ∧
      ∀ m ∈ files, ∃ ds, _process_file accept m.1 m.2 = .ok ds) :
    (load_from_state accept locs bs).err = none := by
  have hrl : ∀ (ls : List Location) (docs : List Document),
      (∀ loc ∈ ls, ∃ files, _open_files_at_location loc = .ok files ∧
        ∀ m ∈ files, ∃ ds, _process_file accept m.1 m.2 = .ok ds) →
      ∃ acc, (runLocations accept bs ls docs).2 = .ok acc := by
    intro ls
    induction ls with
    | nil => exact fun docs _ => ⟨docs, rfl⟩
    | cons loc rest ih =>
      intro docs hl
      obtain ⟨files, ho, hms⟩ := hl loc (List.mem_cons_self _ _)
      obtain ⟨docs', hr⟩ := runMembers_ok_exists accept bs files docs hms
      obtain ⟨acc, hacc⟩ := ih docs'
        (fun l hml => hl l (List.mem_cons_of_mem _ hml))
      exact ⟨acc, by simp only [runLocations, ho, hr, hacc]⟩
  obtain ⟨acc, hacc⟩ := hrl locs [] h
  by_cases hde : acc.isEmpty
  · simp [load_from_state, hacc, hde]
  · simp [load_from_state, hacc, hde]

/-- Claim C4: a zip location holding members `a.txt`, `b.pdf` and
`notes/c.txt`, under the accepted-extension predicate `{.txt}`, yields
exactly the two documents of `a.txt` and `c.txt` — ids are base names
with archive-internal directories stripped — while `b.pdf` is skipped
and the pass completes without error for every batch size. -/
theorem zip_member_filtering (ca cb cc : List RawLine) (da dc : Document)
    (bs : Nat)
    (hca : _process_file acceptTxt "a.txt" ca = .ok [da])
    (hcc : _process_file acceptTxt "c.txt" cc = .ok [dc]) :
    _open_files_at_location ⟨"/data/stuff.zip", .zipArchive
        [("a.txt", ca), ("b.pdf", cb), ("notes/c.txt", cc)]⟩ =
      .ok [("a.txt", ca), ("b.pdf", cb), ("c.txt", cc)] ∧
    producedDocs acceptTxt [⟨"/data/stuff.zip", .zipArchive
        [("a.txt", ca), ("b.pdf", cb), ("notes/c.txt", cc)]⟩] = [da, dc] ∧
    da.id = "a.txt" ∧ dc.id = "c.txt" ∧
    (load_from_state acceptTxt [⟨"/data/stuff.zip", .zipArchive
        [("a.txt", ca), ("b.pdf", cb), ("notes/c.txt", cc)]⟩] bs).err =
      none := by
  have hbp : _process_file acceptTxt "b.pdf" cb = .ok [] := by
    simp [_process_file, show acceptTxt "b.pdf" = false from rfl]
  have hopen : _open_files_at_location ⟨"/data/stuff.zip", .zipArchive
      [("a.txt", ca), ("b.pdf", cb), ("notes/c.txt", cc)]⟩ =
      .ok [("a.txt", ca), ("b.pdf", cb), ("c.txt", cc)] := rfl
  refine ⟨hopen, ?_, ?_, ?_, ?_⟩
  · simp [producedDocs, hopen, filesDocs, hca, hbp, hcc, Except.toOption]
  · exact processFile_id acceptTxt "a.txt" ca [da] hca da
      (List.mem_singleton_self da)
  · exact processFile_id acceptTxt "c.txt" cc [dc] hcc dc
      (List.mem_singleton_self dc)
  · refine load_err_none acceptTxt bs _ ?_
    intro loc hloc
    simp only [List.mem_singleton] at hloc
    subst hloc
    refine ⟨[("a.txt", ca), ("b.pdf", cb), ("c.txt", cc)], hopen, ?_⟩
    intro m hm
    simp only [List.mem_cons, List.not_mem_nil, or_false] at hm
    rcases hm with rfl | rfl | rfl
    · exact ⟨[da], hca⟩
    · exact ⟨[], hbp⟩
    · exact ⟨[dc], hcc⟩

/-- Witness for C4 at concrete member contents (the skipped `b.pdf`
member even has undecodable content, which is never read). -/
theorem zip_member_filtering_witness :
    producedDocs acceptTxt [⟨"/data/stuff.zip", .zipArchive
        [("a.txt", [.text "A\n"]), ("b.pdf", [.bytes none]),
         ("notes/c.txt", [.text "C\n"])]⟩] =
      [{ id := "a.txt", sections := [{ link := "", text := "A\n" }],
         source := "file", semantic_identifier := "a.txt",
         metadata := [] },
       { id := "c.txt", sections := [{ link := "", text := "C\n" }],
         source := "file", semantic_identifier := "c.txt",
         metadata := [] }] :=
  (zip_member_filtering [.text "A\n"] [.bytes none] [.text "C\n"]
    { id := "a.txt", sections := [{ link := "", text := "A\n" }],
      source := "file", semantic_identifier := "a.txt", metadata := [] }
    { id := "c.txt", sections := [{ link := "", text := "C\n" }],
      source := "file", semantic_identifier := "c.txt", metadata := [] }
    4 (by decide) (by decide)).2.1


/-! ## Direct QA claims -/

/-- Claim C8: with a non-`None` offset and a retrieval producing a non-empty
ranked-chunk list, `answer_question` raises whenever
`offset * NUM_GENERATIVE_AI_INPUT_DOCS` is at least the number of
ranked chunks. -/
theorem offset_out_of_range_raises (env : QAEnv)
    (qam : String → List InferenceChunk →
      Except String (Option String × Option (List String)))
    (question : QuestionRequest) (user : Option User) (off : Int)
    (chunks : List InferenceChunk)
    (hoff : question.offset = some off)
    (hrc : (retrievedChunks env question user).1 = some chunks)
    (hne : chunks ≠ [])
    (hout : (chunks.length : Int) ≤
      off * (env.num_generative_ai_input_docs : Int)) :
    answer_question env qam question user = .error .chunkOffsetTooLarge := by
  rcases hqi : env.query_intent question.query with ⟨ps, pf⟩
  rcases hrc2 : retrievedChunks env question user with ⟨rc, uc⟩
  rw [hrc2] at hrc
  simp only at hrc
  subst hrc
  cases chunks with
  | nil => exact absurd rfl hne
  | cons c cs =>
    simp only [answer_question, hoff, hqi, hrc2, if_pos hout]

/-- Claim C9: when retrieval yields no ranked chunks (`None` or the empty
list), `answer_question` returns — it never raises, no matter the
offset — a response whose answer, quotes and both document lists are
all `None`. -/
theorem no_chunks_empty_response (env : QAEnv)
    (qam : String → List InferenceChunk →
      Except String (Option String × Option (List String)))
    (question : QuestionRequest) (user : Option User)
    (h : (retrievedChunks env question user).1 = none ∨
      (retrievedChunks env question user).1 = some []) :
    answer_question env qam question user =
      .ok { answer := none, quotes := none, top_ranked_docs := none,
            lower_ranked_docs := none,
            predicted_flow := (env.query_intent question.query).2,
            predicted_search := (env.query_intent question.query).1,
            error_msg := none } := by
  rcases hqi : env.query_intent question.query with ⟨ps, pf⟩
  rcases hrc : retrievedChunks env question user with ⟨rc, uc⟩
  rw [hrc] at h
  simp only at h
  rcases h with h | h <;> subst h <;> simp [answer_question, hqi, hrc]

/-- Witness for C8: two retrieved chunks, offset 5, one generative doc
per page. -/
theorem offset_out_of_range_raises_witness :
    answer_question demoEnvKeyword demoQAModel (demoQuestion (some 5))
      none = .error .chunkOffsetTooLarge :=
  offset_out_of_range_raises demoEnvKeyword demoQAModel
    (demoQuestion (some 5)) none 5 [⟨0⟩, ⟨1⟩] rfl (by decide) (by decide)
    (by decide)

/-- Witness for C9: empty retrieval with a huge offset still returns
the all-`None` response. -/
theorem no_chunks_empty_response_witness :
    answer_question demoEnvEmpty demoQAModel (demoQuestion (some 1000000))
      none =
      .ok { answer := none, quotes := none, top_ranked_docs := none,
            lower_ranked_docs := none, predicted_flow := "search",
            predicted_search := .keyword, error_msg := none } :=
  no_chunks_empty_response demoEnvEmpty demoQAModel
    (demoQuestion (some 1000000)) none (.inl (by decide))

end Danswer
